import Mathlib

/-!
# timeshit: the recalculation engine of `main.go`

A shallow embedding of `getRateForDate`, `recalculateDb` and the form handler's
"save days" branch, followed by the properties claimed of them.

Modelling conventions.

* `time.Time` values only arise from `time.Parse(time.DateOnly, s)` and from the
  declaration `var bestDate time.Time`.  Such a value is a midnight in UTC, so it is
  determined by its civil date; it is represented by the triple (year, month, day).
  `Before`/`After` compare instants, which for midnights in UTC is the lexicographic
  order of the triples.  The zero `Time` is 1 January of year 1.
* `float64` is kept abstract: the row types are parametrised by a carrier `F` with a
  zero, an addition and a multiplication about which nothing is assumed.  Every
  statement therefore holds for IEEE-754 doubles too; equality is identity of the
  stored value.
* The process-wide variable `db` is passed explicitly.
* `sort.Slice` is library code; `recalculateDb` takes it as a parameter and the
  theorems state which part of its behaviour they rely on.
-/

namespace Timeshit

/-! ## Calendar dates and `time.Parse(time.DateOnly, ·)` -/

/-- A `time.Time` holding a midnight in UTC, given by its civil date. -/
structure Time where
  year : Nat
  month : Nat
  day : Nat
deriving DecidableEq, Repr

/-- The zero value of `time.Time`: January 1, year 1, 00:00:00 UTC. -/
def Time.zero : Time := ⟨1, 1, 1⟩

/-- Go `Time.IsZero`: the instant is January 1, year 1, 00:00:00 UTC. -/
def Time.IsZero (t : Time) : Bool :=
  t.year == 1 && t.month == 1 && t.day == 1

/-- Go `Time.Before`: the instant `t` is strictly earlier than `u`. -/
def Time.Before (t u : Time) : Bool :=
  decide (t.year < u.year) ||
    (t.year == u.year &&
      (decide (t.month < u.month) || (t.month == u.month && decide (t.day < u.day))))

/-- Go `Time.After`: the instant `t` is strictly later than `u`. -/
def Time.After (t u : Time) : Bool :=
  decide (u.year < t.year) ||
    (t.year == u.year &&
      (decide (u.month < t.month) || (t.month == u.month && decide (u.day < t.day))))

/-- Go `isLeap`. -/
def isLeap (year : Nat) : Bool :=
  year % 4 == 0 && (year % 100 != 0 || year % 400 == 0)

/-- Go `daysIn`: the number of days of a month of a year. -/
def daysIn (month year : Nat) : Nat :=
  if month == 2 then (if isLeap year then 29 else 28)
  else if month == 4 || month == 6 || month == 9 || month == 11 then 30
  else 31

/-- Go `isDigit` on one byte of the input. -/
def isDigit (c : Char) : Bool :=
  decide (48 ≤ c.toNat) && decide (c.toNat ≤ 57)

/-- The value of a decimal digit. -/
def digitVal (c : Char) : Nat := c.toNat - 48

/-- Go `time.Parse(time.DateOnly, s)` with layout `2006-01-02`: exactly four digits of
year, a dash, two digits of month in 1..12, a dash, two digits of day in
1..daysIn(month, year), and nothing after.  `none` stands for a non-nil error. -/
def parseDate (s : String) : Option Time :=
  match s.data with
  | [y1, y2, y3, y4, s1, m1, m2, s2, d1, d2] =>
    if isDigit y1 && isDigit y2 && isDigit y3 && isDigit y4 && s1 == '-' &&
        isDigit m1 && isDigit m2 && s2 == '-' && isDigit d1 && isDigit d2 then
      let year := digitVal y1 * 1000 + digitVal y2 * 100 + digitVal y3 * 10 + digitVal y4
      let month := digitVal m1 * 10 + digitVal m2
      let day := digitVal d1 * 10 + digitVal d2
      if month == 0 || decide (12 < month) then none
      else if day == 0 || decide (daysIn month year < day) then none
      else some ⟨year, month, day⟩
    else none
  | _ => none

/-! ## Data model -/

/-- Go `daysRow`. -/
structure daysRow (F : Type) where
  Date : String
  Hours : F
  Pay : F
  Paid : Bool
  Owed : F
deriving DecidableEq, Repr

/-- Go `daysTotalRow`. -/
structure daysTotalRow (F : Type) where
  Hours : F
  Pay : F
  Owed : F
deriving DecidableEq, Repr

/-- Go `ratesRow`. -/
structure ratesRow (F : Type) where
  Date : String
  Rate : F
deriving DecidableEq, Repr

/-- Go `dbData`, the type of the process-wide variable `db`. -/
structure dbData (F : Type) where
  Days : List (daysRow F)
  DaysTotal : daysTotalRow F
  Rates : List (ratesRow F)
deriving DecidableEq, Repr

/-! ## The comparator handed to `sort.Slice` -/

/-- The body shared by the two closures passed to `sort.Slice` in `recalculateDb`,
as a function of the two date strings `db.X[i].Date` and `db.X[j].Date`. -/
def lessDate (di dj : String) : Bool :=
  match parseDate di, parseDate dj with
  | none, none => false
  | none, some _ => false
  | some _, none => true
  | some ti, some tj => ti.Before tj

/-- The closure of the first `sort.Slice` call, on the elements at `i` and `j`. -/
def lessRates {F : Type} (a b : ratesRow F) : Bool := lessDate a.Date b.Date

/-- The closure of the second `sort.Slice` call, on the elements at `i` and `j`. -/
def lessDays {F : Type} (a b : daysRow F) : Bool := lessDate a.Date b.Date

/-! ## `getRateForDate` -/

/-- One iteration of the loop of `getRateForDate`: the state is `(bestDate, rate)` and
`t` is the parsed day date. -/
def rateStep {F : Type} (t : Time) (st : Time × F) (r : ratesRow F) : Time × F :=
  match parseDate r.Date with
  | none => st
  | some rt =>
    if rt.After t then st
    else if st.1.IsZero || rt.After st.1 then (rt, r.Rate)
    else st

/-- Go `getRateForDate`, with `db.Rates` as an explicit argument. -/
def getRateForDate {F : Type} [Zero F] (Rates : List (ratesRow F)) (date : String) : F :=
  match parseDate date with
  | none => 0
  | some t => (Rates.foldl (rateStep t) (Time.zero, 0)).2

/-! ## `recalculateDb` -/

/-- The variables of the loop over `db.Days`: the rows rewritten so far and the three
running sums. -/
structure recalcState (F : Type) where
  days : List (daysRow F)
  sumHours : F
  sumPay : F
  sumOwed : F

/-- One iteration of `for i, d := range db.Days` in `recalculateDb`. -/
def recalcStep {F : Type} [Zero F] [Add F] [Mul F] (Rates : List (ratesRow F))
    (st : recalcState F) (d : daysRow F) : recalcState F :=
  let pay := getRateForDate Rates d.Date * d.Hours
  if !d.Paid then
    { days := st.days ++ [{ d with Pay := pay, Owed := pay }]
      sumHours := st.sumHours + d.Hours
      sumPay := st.sumPay + pay
      sumOwed := st.sumOwed + pay }
  else
    { days := st.days ++ [{ d with Pay := pay, Owed := 0 }]
      sumHours := st.sumHours + d.Hours
      sumPay := st.sumPay + pay
      sumOwed := st.sumOwed }

/-- Go `recalculateDb`, as a function from the ledger before the call to the ledger
after it.  `sortSlice α less l` stands for `sort.Slice` run on the slice `l` with a
closure that compares the elements at two indices by `less`. -/
def recalculateDb {F : Type} [Zero F] [Add F] [Mul F]
    (sortSlice : (α : Type) → (α → α → Bool) → List α → List α) (db : dbData F) : dbData F :=
  let rates := sortSlice (ratesRow F) lessRates db.Rates
  let days := sortSlice (daysRow F) lessDays db.Days
  let st := days.foldl (recalcStep rates) ⟨[], 0, 0, 0⟩
  { Days := st.days
    DaysTotal := { Hours := st.sumHours, Pay := st.sumPay, Owed := st.sumOwed }
    Rates := rates }

/-! ## The form handler: `form=days`, `action=save` -/

/-- The closure `fv` of the handler: `r.PostFormValue(fmt.Sprintf("%s_%d", s, i))`. -/
def fv (postFormValue : String → String) (i : Nat) (s : String) : String :=
  postFormValue (s ++ "_" ++ toString i)

/-- One iteration of `for i := range db.Days` in the save branch.  `parseFloat s` is the
value returned by `strconv.ParseFloat(s, 64)`; its error is only printed. -/
def saveDaysStep {F : Type} [Zero F] (parseFloat : String → F)
    (postFormValue : String → String) (newDays : List (daysRow F)) (i : Nat) :
    List (daysRow F) :=
  let date := fv postFormValue i "date"
  let hours := parseFloat (fv postFormValue i "hours")
  let paid := fv postFormValue i "paid" != ""
  let del := fv postFormValue i "delete" != ""
  if del then newDays
  else newDays ++ [{ Date := date, Hours := hours, Pay := 0, Paid := paid, Owed := 0 }]

/-- The save branch for days: the loop over the indices of `db.Days`, then
`db.Days = newDays`. -/
def saveDays {F : Type} [Zero F] (parseFloat : String → F)
    (postFormValue : String → String) (db : dbData F) : dbData F :=
  { db with Days := (List.range db.Days.length).foldl (saveDaysStep parseFloat postFormValue) [] }

/-! ## What is assumed of `sort.Slice` -/

/-- A comparator is a strict weak order: irreflexive, asymmetric, transitive, and with
a transitive incomparability relation. -/
structure IsStrictWeak {α : Type} (less : α → α → Bool) : Prop where
  irrefl : ∀ a, less a a = false
  asymm : ∀ a b, less a b = true → less b a = false
  trans : ∀ a b c, less a b = true → less b c = true → less a c = true
  incomp_trans : ∀ a b c, less a b = false → less b a = false →
    less b c = false → less c b = false → less a c = false ∧ less c a = false

/-- The slice is in order for `less`: no element is less than one before it. -/
def Ordered {α : Type} (less : α → α → Bool) (l : List α) : Prop :=
  l.Pairwise (fun a b => less b a = false)

/-- The routine only rearranges the slice (`sort.Slice` works by swaps). -/
def SortPermutes (sortSlice : (α : Type) → (α → α → Bool) → List α → List α) : Prop :=
  ∀ (α : Type) (less : α → α → Bool) (l : List α), (sortSlice α less l).Perm l

/-- The routine leaves the slice in order whenever the comparator is a strict weak
order (the documented contract of `sort.Slice`). -/
def SortOrders (sortSlice : (α : Type) → (α → α → Bool) → List α → List α) : Prop :=
  ∀ (α : Type) (less : α → α → Bool) (l : List α),
    IsStrictWeak less → Ordered less (sortSlice α less l)

/-- The routine returns a slice that is already in order unchanged.  Go's pattern-defeating
quicksort behind `sort.Slice` does so: up to 12 elements it runs an insertion sort, which
swaps nothing on such a slice, and above that its pivot selection counts no out-of-order
pair and the following scan of adjacent pairs returns before any swap. -/
def SortKeepsOrdered (sortSlice : (α : Type) → (α → α → Bool) → List α → List α) : Prop :=
  ∀ (α : Type) (less : α → α → Bool) (l : List α),
    Ordered less l → sortSlice α less l = l

/-- An insertion sort, used as a concrete instance of the sorting routine. -/
def insertionSortSlice (α : Type) (less : α → α → Bool) (l : List α) : List α :=
  l.insertionSort (fun a b => less b a = false)

/-! ## Vocabulary used to state the properties -/

/-- The row the loop of `recalculateDb` writes back for the row `d`. -/
def recalcRow {F : Type} [Zero F] [Mul F] (Rates : List (ratesRow F)) (d : daysRow F) :
    daysRow F :=
  { d with
    Pay := getRateForDate Rates d.Date * d.Hours
    Owed := if d.Paid then 0 else getRateForDate Rates d.Date * d.Hours }

/-- The sum of a list as the loop computes it: start from zero, add from the left. -/
def sumLeft {F : Type} [Zero F] [Add F] (l : List F) : F := l.foldl (· + ·) 0

/-- The raw fields of a day: date, hours and paid. -/
def rawDay {F : Type} (d : daysRow F) : String × F × Bool := (d.Date, d.Hours, d.Paid)

/-- The row the save branch builds for index `i` of the submitted form. -/
def submittedDay {F : Type} [Zero F] (parseFloat : String → F)
    (postFormValue : String → String) (i : Nat) : daysRow F :=
  { Date := fv postFormValue i "date"
    Hours := parseFloat (fv postFormValue i "hours")
    Pay := 0
    Paid := fv postFormValue i "paid" != ""
    Owed := 0 }

/-- A ledger over the integers with the days of scenarios A, B and D out of order, stale
derived fields and the rates out of order. -/
def scenarioLedger : dbData Int :=
  { Days := [⟨"bad", 3, 9, false, 9⟩, ⟨"2024-07-01", 5, 0, true, 7⟩, ⟨"2024-03-01", 5, 1, false, 0⟩]
    DaysTotal := ⟨1, 2, 3⟩
    Rates := [⟨"2024-06-01", 20⟩, ⟨"2024-01-01", 10⟩] }

/-! ## The order of instants -/

theorem Time.before_iff (t u : Time) :
    t.Before u = true ↔
      (t.year < u.year ∨ (t.year = u.year ∧
        (t.month < u.month ∨ (t.month = u.month ∧ t.day < u.day)))) := by
  simp [Time.Before]

theorem Time.after_eq_before (t u : Time) : t.After u = u.Before t := by
  cases t; cases u
  simp only [Time.After, Time.Before]
  rw [Bool.eq_iff_iff]
  simp only [Bool.or_eq_true, Bool.and_eq_true, decide_eq_true_eq, beq_iff_eq]
  omega

theorem Time.before_irrefl (t : Time) : t.Before t = false := by
  rw [← Bool.not_eq_true, Time.before_iff]
  omega

theorem Time.before_trans {t u v : Time} (h₁ : t.Before u = true) (h₂ : u.Before v = true) :
    t.Before v = true := by
  rw [Time.before_iff] at *
  omega

theorem Time.before_asymm {t u : Time} (h : t.Before u = true) : u.Before t = false := by
  rw [← Bool.not_eq_true]
  rw [Time.before_iff] at *
  omega

theorem Time.eq_of_not_before {t u : Time} (h₁ : t.Before u = false) (h₂ : u.Before t = false) :
    t = u := by
  rw [← Bool.not_eq_true, Time.before_iff] at h₁ h₂
  cases t; cases u
  simp only [Time.mk.injEq] at *
  omega

theorem Time.isZero_iff (t : Time) : t.IsZero = true ↔ t = Time.zero := by
  cases t
  simp [Time.IsZero, Time.zero, and_assoc]

/-! ## The comparator is a strict weak order -/

theorem lessDate_some_some {a b : String} {ta tb : Time} (ha : parseDate a = some ta)
    (hb : parseDate b = some tb) : lessDate a b = ta.Before tb := by
  simp [lessDate, ha, hb]

theorem lessDate_none_left {a : String} (b : String) (ha : parseDate a = none) :
    lessDate a b = false := by
  unfold lessDate
  rw [ha]
  cases parseDate b <;> rfl

theorem lessDate_some_none {a b : String} {ta : Time} (ha : parseDate a = some ta)
    (hb : parseDate b = none) : lessDate a b = true := by
  simp [lessDate, ha, hb]

theorem lessDate_strictWeak : IsStrictWeak lessDate where
  irrefl a := by
    cases ha : parseDate a with
    | none => exact lessDate_none_left a ha
    | some ta => rw [lessDate_some_some ha ha]; exact Time.before_irrefl ta
  asymm a b h := by
    cases ha : parseDate a with
    | none => rw [lessDate_none_left b ha] at h; cases h
    | some ta =>
      cases hb : parseDate b with
      | none => exact lessDate_none_left a hb
      | some tb =>
        rw [lessDate_some_some ha hb] at h
        rw [lessDate_some_some hb ha]
        exact Time.before_asymm h
  trans a b c hab hbc := by
    cases ha : parseDate a with
    | none => rw [lessDate_none_left b ha] at hab; cases hab
    | some ta =>
      cases hb : parseDate b with
      | none => rw [lessDate_none_left c hb] at hbc; cases hbc
      | some tb =>
        cases hc : parseDate c with
        | none => exact lessDate_some_none ha hc
        | some tc =>
          rw [lessDate_some_some ha hb] at hab
          rw [lessDate_some_some hb hc] at hbc
          rw [lessDate_some_some ha hc]
          exact Time.before_trans hab hbc
  incomp_trans a b c hab hba hbc hcb := by
    cases ha : parseDate a with
    | none =>
      cases hb : parseDate b with
      | none =>
        cases hc : parseDate c with
        | none => exact ⟨lessDate_none_left c ha, lessDate_none_left a hc⟩
        | some tc => rw [lessDate_some_none hc hb] at hcb; cases hcb
      | some tb => rw [lessDate_some_none hb ha] at hba; cases hba
    | some ta =>
      cases hb : parseDate b with
      | none => rw [lessDate_some_none ha hb] at hab; cases hab
      | some tb =>
        cases hc : parseDate c with
        | none => rw [lessDate_some_none hb hc] at hbc; cases hbc
        | some tc =>
          rw [lessDate_some_some ha hb] at hab
          rw [lessDate_some_some hb ha] at hba
          rw [lessDate_some_some hb hc] at hbc
          rw [lessDate_some_some hc hb] at hcb
          have e₁ : ta = tb := Time.eq_of_not_before hab hba
          have e₂ : tb = tc := Time.eq_of_not_before hbc hcb
          subst e₁ e₂
          rw [lessDate_some_some ha hc, lessDate_some_some hc ha]
          exact ⟨Time.before_irrefl ta, Time.before_irrefl ta⟩

theorem IsStrictWeak.comap {α β : Type} {less : α → α → Bool} (h : IsStrictWeak less)
    (f : β → α) : IsStrictWeak (fun a b => less (f a) (f b)) where
  irrefl a := h.irrefl (f a)
  asymm a b := h.asymm (f a) (f b)
  trans a b c := h.trans (f a) (f b) (f c)
  incomp_trans a b c := h.incomp_trans (f a) (f b) (f c)

theorem lessRates_strictWeak (F : Type) : IsStrictWeak (lessRates : ratesRow F → _ → Bool) :=
  lessDate_strictWeak.comap ratesRow.Date

theorem lessDays_strictWeak (F : Type) : IsStrictWeak (lessDays : daysRow F → _ → Bool) :=
  lessDate_strictWeak.comap daysRow.Date

/-- In a strict weak order, "not less" is transitive. -/
theorem IsStrictWeak.not_less_trans {α : Type} {less : α → α → Bool} (h : IsStrictWeak less)
    {a b c : α} (hba : less b a = false) (hcb : less c b = false) : less c a = false := by
  cases hca : less c a with
  | false => rfl
  | true =>
    exfalso
    cases hab : less a b with
    | true =>
      have := h.trans c a b hca hab
      rw [hcb] at this; cases this
    | false =>
      cases hbc : less b c with
      | true =>
        have := h.trans b c a hbc hca
        rw [hba] at this; cases this
      | false =>
        have := (h.incomp_trans a b c hab hba hbc hcb).2
        rw [hca] at this; cases this

/-! ## The insertion sort meets what is assumed of `sort.Slice` -/

theorem insertionSortSlice_permutes : SortPermutes insertionSortSlice :=
  fun _ less l => List.perm_insertionSort (fun a b => less b a = false) l

theorem insertionSortSlice_orders : SortOrders insertionSortSlice := by
  intro α less l h
  haveI : IsTotal α (fun a b => less b a = false) :=
    ⟨fun a b => by
      cases hba : less b a with
      | false => exact Or.inl rfl
      | true => exact Or.inr (h.asymm b a hba)⟩
  haveI : IsTrans α (fun a b => less b a = false) :=
    ⟨fun a b c hab hbc => h.not_less_trans hab hbc⟩
  exact List.sorted_insertionSort (fun a b => less b a = false) l

theorem insertionSortSlice_keepsOrdered : SortKeepsOrdered insertionSortSlice := by
  intro α less l h
  have hs : List.Sorted (fun a b => less b a = false) l := h
  exact hs.insertionSort_eq

/-! ## `getRateForDate`: the scan -/

section Scan

variable {F : Type}

theorem rateStep_unparsable {t : Time} (st : Time × F) {r : ratesRow F}
    (h : parseDate r.Date = none) : rateStep t st r = st := by
  simp [rateStep, h]

theorem rateStep_future {t rt : Time} (st : Time × F) {r : ratesRow F}
    (h : parseDate r.Date = some rt) (ha : rt.After t = true) : rateStep t st r = st := by
  simp [rateStep, h, ha]

theorem rateStep_take {t rt : Time} (st : Time × F) {r : ratesRow F}
    (h : parseDate r.Date = some rt) (ha : rt.After t = false)
    (hb : st.1.IsZero = true ∨ rt.After st.1 = true) : rateStep t st r = (rt, r.Rate) := by
  rcases hb with hb | hb <;> simp [rateStep, h, ha, hb]

theorem rateStep_keep {t rt : Time} (st : Time × F) {r : ratesRow F}
    (h : parseDate r.Date = some rt) (hz : st.1.IsZero = false) (hb : rt.After st.1 = false) :
    rateStep t st r = st := by
  simp [rateStep, h, hz, hb]

/-- A step either leaves the state alone or stores a record that parses and is not
after the day. -/
theorem rateStep_cases (t : Time) (st : Time × F) (r : ratesRow F) :
    rateStep t st r = st ∨
      ∃ rt, parseDate r.Date = some rt ∧ rt.After t = false ∧ rateStep t st r = (rt, r.Rate) := by
  cases h : parseDate r.Date with
  | none => exact Or.inl (rateStep_unparsable st h)
  | some rt =>
    cases ha : rt.After t with
    | true => exact Or.inl (rateStep_future st h ha)
    | false =>
      cases hz : st.1.IsZero with
      | true => exact Or.inr ⟨rt, rfl, ha, rateStep_take st h ha (Or.inl hz)⟩
      | false =>
        cases hb : rt.After st.1 with
        | true => exact Or.inr ⟨rt, rfl, ha, rateStep_take st h ha (Or.inr hb)⟩
        | false => exact Or.inl (rateStep_keep st h hz hb)

/-- The rate held after the scan is the initial one or that of a record of the list that
parses and is not after the day. -/
theorem foldl_rateStep_snd (t : Time) (R : List (ratesRow F)) (st : Time × F) :
    (R.foldl (rateStep t) st).2 = st.2 ∨
      ∃ r ∈ R, ∃ rt, parseDate r.Date = some rt ∧ rt.After t = false ∧
        (R.foldl (rateStep t) st).2 = r.Rate := by
  induction R generalizing st with
  | nil => exact Or.inl rfl
  | cons r R ih =>
    rw [List.foldl_cons]
    rcases ih (rateStep t st r) with h | ⟨r', hr', rt', hp, ha, he⟩
    · rcases rateStep_cases t st r with hs | ⟨rt, hp, ha, hs⟩
      · rw [hs] at h ⊢
        exact Or.inl h
      · rw [hs] at h ⊢
        exact Or.inr ⟨r, List.mem_cons_self _ _, rt, hp, ha, h⟩
    · exact Or.inr ⟨r', List.mem_cons_of_mem _ hr', rt', hp, ha, he⟩

/-- When no record both parses and is on or before the day, the scan changes nothing. -/
theorem foldl_rateStep_none (t : Time) (R : List (ratesRow F)) (st : Time × F)
    (h : ∀ r ∈ R, ∀ rt, parseDate r.Date = some rt → rt.After t = true) :
    R.foldl (rateStep t) st = st := by
  induction R generalizing st with
  | nil => rfl
  | cons r R ih =>
    rw [List.foldl_cons]
    have hstep : rateStep t st r = st := by
      cases hp : parseDate r.Date with
      | none => exact rateStep_unparsable st hp
      | some rt => exact rateStep_future st hp (h r (List.mem_cons_self _ _) rt hp)
    rw [hstep]
    exact ih st (fun r' hr' => h r' (List.mem_cons_of_mem _ hr'))

/-- Before the first record carrying the latest date `rt`, `bestDate` is still the zero
time or a date strictly before `rt`. -/
theorem foldl_rateStep_before_latest (t rt : Time) (pre : List (ratesRow F)) (st : Time × F)
    (hpre : ∀ r ∈ pre, ∀ rt', parseDate r.Date = some rt' → rt'.After t = false →
      rt'.Before rt = true)
    (hst : st.1.IsZero = true ∨ st.1.Before rt = true) :
    (pre.foldl (rateStep t) st).1.IsZero = true ∨
      (pre.foldl (rateStep t) st).1.Before rt = true := by
  induction pre generalizing st with
  | nil => exact hst
  | cons r pre ih =>
    rw [List.foldl_cons]
    apply ih _ (fun r' hr' => hpre r' (List.mem_cons_of_mem _ hr'))
    rcases rateStep_cases t st r with hs | ⟨rt', hp, ha, hs⟩
    · rw [hs]; exact hst
    · rw [hs]; exact Or.inr (hpre r (List.mem_cons_self _ _) rt' hp ha)

/-- Once `bestDate` holds a date that is not the zero time and that no later record
exceeds, the state no longer changes. -/
theorem foldl_rateStep_suffix (t rt : Time) (x : F) (post : List (ratesRow F))
    (hz : rt ≠ Time.zero)
    (hpost : ∀ r ∈ post, ∀ rt', parseDate r.Date = some rt' → rt'.After t = false →
      rt'.After rt = false) :
    post.foldl (rateStep t) (rt, x) = (rt, x) := by
  induction post with
  | nil => rfl
  | cons r post ih =>
    rw [List.foldl_cons]
    have hstep : rateStep t (rt, x) r = (rt, x) := by
      cases hp : parseDate r.Date with
      | none => exact rateStep_unparsable _ hp
      | some rt' =>
        cases ha : rt'.After t with
        | true => exact rateStep_future _ hp ha
        | false =>
          apply rateStep_keep _ hp
          · cases hzz : rt.IsZero with
            | false => rfl
            | true => exact absurd ((Time.isZero_iff rt).1 hzz) hz
          · exact hpost r (List.mem_cons_self _ _) rt' hp ha
    rw [hstep]
    exact ih (fun r' hr' => hpost r' (List.mem_cons_of_mem _ hr'))

/-- The scan returns the first record that carries the latest qualifying date, as long
as that date is not the zero time. -/
theorem foldl_rateStep_first_latest (t rt : Time) (pre post : List (ratesRow F))
    (r : ratesRow F) (x : F)
    (hr : parseDate r.Date = some rt) (hq : rt.After t = false) (hz : rt ≠ Time.zero)
    (hpre : ∀ r' ∈ pre, ∀ rt', parseDate r'.Date = some rt' → rt'.After t = false →
      rt'.Before rt = true)
    (hpost : ∀ r' ∈ post, ∀ rt', parseDate r'.Date = some rt' → rt'.After t = false →
      rt'.After rt = false) :
    (pre ++ r :: post).foldl (rateStep t) (Time.zero, x) = (rt, r.Rate) := by
  rw [List.foldl_append, List.foldl_cons]
  have h₀ : (pre.foldl (rateStep t) (Time.zero, x)).1.IsZero = true ∨
      (pre.foldl (rateStep t) (Time.zero, x)).1.Before rt = true :=
    foldl_rateStep_before_latest t rt pre _ hpre (Or.inl rfl)
  have h₁ : rateStep t (pre.foldl (rateStep t) (Time.zero, x)) r = (rt, r.Rate) := by
    apply rateStep_take _ hr hq
    rcases h₀ with h | h
    · exact Or.inl h
    · exact Or.inr (by rw [Time.after_eq_before]; exact h)
  rw [h₁]
  exact foldl_rateStep_suffix t rt r.Rate post hz hpost

/-- While `bestDate` is the zero time and every record that qualifies is dated at the
zero time, the scan keeps `bestDate` and holds the rate of one of those records. -/
theorem foldl_rateStep_zero_suffix (t : Time) (post : List (ratesRow F)) (st : Time × F)
    (hst : st.1 = Time.zero)
    (hpost : ∀ r ∈ post, ∀ rt', parseDate r.Date = some rt' → rt'.After t = false →
      rt' = Time.zero) :
    (post.foldl (rateStep t) st).1 = Time.zero ∧
      ((post.foldl (rateStep t) st).2 = st.2 ∨
        ∃ r ∈ post, parseDate r.Date = some Time.zero ∧
          (post.foldl (rateStep t) st).2 = r.Rate) := by
  induction post generalizing st with
  | nil => exact ⟨hst, Or.inl rfl⟩
  | cons r post ih =>
    rw [List.foldl_cons]
    have hpost' : ∀ r' ∈ post, ∀ rt', parseDate r'.Date = some rt' → rt'.After t = false →
        rt' = Time.zero := fun r' hr' => hpost r' (List.mem_cons_of_mem _ hr')
    rcases rateStep_cases t st r with hs | ⟨rt, hp, ha, hs⟩
    · rw [hs]
      obtain ⟨h₁, h₂⟩ := ih st hst hpost'
      refine ⟨h₁, ?_⟩
      rcases h₂ with h₂ | ⟨r', hr', hp', he⟩
      · exact Or.inl h₂
      · exact Or.inr ⟨r', List.mem_cons_of_mem _ hr', hp', he⟩
    · have hz : rt = Time.zero := hpost r (List.mem_cons_self _ _) rt hp ha
      subst hz
      rw [hs]
      obtain ⟨h₁, h₂⟩ := ih (Time.zero, r.Rate) rfl hpost'
      refine ⟨h₁, Or.inr ?_⟩
      rcases h₂ with h₂ | ⟨r', hr', hp', he⟩
      · exact ⟨r, List.mem_cons_self _ _, hp, h₂⟩
      · exact ⟨r', List.mem_cons_of_mem _ hr', hp', he⟩

/-- A list with an element satisfying `P` splits at the first such element. -/
theorem exists_first_split {α : Type} (P : α → Prop) (l : List α) (h : ∃ a ∈ l, P a) :
    ∃ pre a post, l = pre ++ a :: post ∧ P a ∧ ∀ x ∈ pre, ¬ P x := by
  induction l with
  | nil =>
    obtain ⟨a, ha, -⟩ := h
    cases ha
  | cons b l ih =>
    by_cases hb : P b
    · exact ⟨[], b, l, rfl, hb, fun x hx => by cases hx⟩
    · obtain ⟨a, ha, hPa⟩ := h
      have hal : a ∈ l := by
        rcases List.mem_cons.1 ha with rfl | ha'
        · exact absurd hPa hb
        · exact ha'
      obtain ⟨pre, a', post, rfl, hPa', hpre⟩ := ih ⟨a, hal, hPa⟩
      refine ⟨b :: pre, a', post, rfl, hPa', fun x hx => ?_⟩
      rcases List.mem_cons.1 hx with rfl | hx'
      · exact hb
      · exact hpre x hx'

/-- The scan returns the rate of a record carrying the latest qualifying date `rt`, when
`rt` is not the zero time or the list is in date order. -/
theorem foldl_rateStep_latest (t rt : Time) (R : List (ratesRow F)) (x : F)
    (hex : ∃ r ∈ R, parseDate r.Date = some rt) (hq : rt.After t = false)
    (hmax : ∀ r' ∈ R, ∀ rt', parseDate r'.Date = some rt' → rt'.After t = false →
      rt'.After rt = false)
    (hcond : rt ≠ Time.zero ∨ Ordered lessRates R) :
    ∃ r₀ ∈ R, parseDate r₀.Date = some rt ∧ (R.foldl (rateStep t) (Time.zero, x)).2 = r₀.Rate := by
  obtain ⟨pre, r₀, post, rfl, hr₀, hfirst⟩ :=
    exists_first_split (fun r : ratesRow F => parseDate r.Date = some rt) R hex
  have hpre : ∀ r' ∈ pre, ∀ rt', parseDate r'.Date = some rt' → rt'.After t = false →
      rt'.Before rt = true := by
    intro r' hr' rt' hp ha
    have h₁ : rt.Before rt' = false := by
      rw [← Time.after_eq_before]
      exact hmax r' (List.mem_append_left _ hr') rt' hp ha
    cases h₂ : rt'.Before rt with
    | true => rfl
    | false =>
      have : rt' = rt := Time.eq_of_not_before h₂ h₁
      subst this
      exact absurd hp (hfirst r' hr')
  have hpost : ∀ r' ∈ post, ∀ rt', parseDate r'.Date = some rt' → rt'.After t = false →
      rt'.After rt = false := fun r' hr' =>
    hmax r' (List.mem_append_right _ (List.mem_cons_of_mem _ hr'))
  have hmem : r₀ ∈ pre ++ r₀ :: post := List.mem_append_right _ (List.mem_cons_self _ _)
  by_cases hz : rt = Time.zero
  · rcases hcond with hne | hord
    · exact absurd hz hne
    · subst hz
      have hpost₀ : ∀ r' ∈ post, ∀ rt', parseDate r'.Date = some rt' → rt'.After t = false →
          rt' = Time.zero := by
        intro r' hr' rt' hp ha
        have h₁ : Time.zero.Before rt' = false := by
          rw [← Time.after_eq_before]
          exact hpost r' hr' rt' hp ha
        have h₂ : rt'.Before Time.zero = false := by
          have hless : lessRates r' r₀ = false :=
            List.rel_of_pairwise_cons (List.pairwise_append.1 hord).2.1 hr'
          rw [← lessDate_some_some hp hr₀]
          exact hless
        exact Time.eq_of_not_before h₂ h₁
      rw [List.foldl_append, List.foldl_cons]
      have h₀ := foldl_rateStep_before_latest t Time.zero pre (Time.zero, x) hpre (Or.inl rfl)
      have h₁ : rateStep t (pre.foldl (rateStep t) (Time.zero, x)) r₀ =
          (Time.zero, r₀.Rate) := by
        apply rateStep_take _ hr₀ hq
        rcases h₀ with h | h
        · exact Or.inl h
        · exact Or.inr (by rw [Time.after_eq_before]; exact h)
      rw [h₁]
      rcases (foldl_rateStep_zero_suffix t post (Time.zero, r₀.Rate) rfl hpost₀).2 with
        h | ⟨r', hr', hp', he⟩
      · exact ⟨r₀, hmem, hr₀, h⟩
      · exact ⟨r', List.mem_append_right _ (List.mem_cons_of_mem _ hr'), hp', he⟩
  · refine ⟨r₀, hmem, hr₀, ?_⟩
    rw [foldl_rateStep_first_latest t rt pre post r₀ x hr₀ hq hz hpre hpost]

end Scan

/-! ## The row written back by the loop -/

section Row

variable {F : Type} [Zero F] [Mul F]

theorem recalcRow_Date (Rates : List (ratesRow F)) (d : daysRow F) :
    (recalcRow Rates d).Date = d.Date := rfl

theorem recalcRow_Hours (Rates : List (ratesRow F)) (d : daysRow F) :
    (recalcRow Rates d).Hours = d.Hours := rfl

theorem recalcRow_Paid (Rates : List (ratesRow F)) (d : daysRow F) :
    (recalcRow Rates d).Paid = d.Paid := rfl

theorem recalcRow_idem (Rates : List (ratesRow F)) (d : daysRow F) :
    recalcRow Rates (recalcRow Rates d) = recalcRow Rates d := rfl

theorem rawDay_recalcRow (Rates : List (ratesRow F)) (d : daysRow F) :
    rawDay (recalcRow Rates d) = rawDay d := rfl

theorem ordered_map_recalcRow (Rates : List (ratesRow F)) {days : List (daysRow F)}
    (h : Ordered lessDays days) : Ordered lessDays (days.map (recalcRow Rates)) := by
  unfold Ordered at *
  rw [List.pairwise_map]
  exact h

end Row

/-! ## `recalculateDb`: the loop over the days -/

section Loop

variable {F : Type} [Zero F] [Add F] [Mul F]

theorem recalcStep_eq (Rates : List (ratesRow F)) (st : recalcState F) (d : daysRow F) :
    recalcStep Rates st d =
      { days := st.days ++ [recalcRow Rates d]
        sumHours := st.sumHours + d.Hours
        sumPay := st.sumPay + (recalcRow Rates d).Pay
        sumOwed := if d.Paid then st.sumOwed else st.sumOwed + (recalcRow Rates d).Pay } := by
  cases hp : d.Paid <;> simp [recalcStep, recalcRow, hp]

/-- The state after the loop, in closed form. -/
theorem foldl_recalcStep (Rates : List (ratesRow F)) (days : List (daysRow F))
    (st : recalcState F) :
    days.foldl (recalcStep Rates) st =
      { days := st.days ++ days.map (recalcRow Rates)
        sumHours := (days.map (fun d => d.Hours)).foldl (· + ·) st.sumHours
        sumPay := ((days.map (recalcRow Rates)).map (fun d => d.Pay)).foldl (· + ·) st.sumPay
        sumOwed := (((days.map (recalcRow Rates)).filter (fun d => !d.Paid)).map
          (fun d => d.Pay)).foldl (· + ·) st.sumOwed } := by
  induction days generalizing st with
  | nil => simp
  | cons d days ih =>
    rw [List.foldl_cons, ih, recalcStep_eq]
    cases hp : d.Paid <;> simp [recalcRow, hp]

/-- The ledger after `recalculateDb`, in closed form. -/
theorem recalculateDb_eq (sortSlice : (α : Type) → (α → α → Bool) → List α → List α)
    (db : dbData F) :
    recalculateDb sortSlice db =
      { Days := (sortSlice (daysRow F) lessDays db.Days).map
          (recalcRow (sortSlice (ratesRow F) lessRates db.Rates))
        DaysTotal :=
          { Hours := sumLeft (((sortSlice (daysRow F) lessDays db.Days).map
              (recalcRow (sortSlice (ratesRow F) lessRates db.Rates))).map (fun d => d.Hours))
            Pay := sumLeft (((sortSlice (daysRow F) lessDays db.Days).map
              (recalcRow (sortSlice (ratesRow F) lessRates db.Rates))).map (fun d => d.Pay))
            Owed := sumLeft ((((sortSlice (daysRow F) lessDays db.Days).map
              (recalcRow (sortSlice (ratesRow F) lessRates db.Rates))).filter
                (fun d => !d.Paid)).map (fun d => d.Pay)) }
        Rates := sortSlice (ratesRow F) lessRates db.Rates } := by
  simp only [recalculateDb, foldl_recalcStep, sumLeft, List.nil_append, List.map_map]
  congr

end Loop

/-! ## The save branch: the loop over the indices -/

section Save

variable {F : Type} [Zero F]

theorem foldl_saveDaysStep (parseFloat : String → F) (postFormValue : String → String)
    (idx : List Nat) (newDays : List (daysRow F)) :
    idx.foldl (saveDaysStep parseFloat postFormValue) newDays =
      newDays ++ (idx.filter (fun i => fv postFormValue i "delete" == "")).map
        (submittedDay parseFloat postFormValue) := by
  induction idx generalizing newDays with
  | nil => simp
  | cons i idx ih =>
    rw [List.foldl_cons, ih]
    by_cases hd : fv postFormValue i "delete" = ""
    · simp [saveDaysStep, submittedDay, hd]
    · simp [saveDaysStep, hd]

end Save

/-! ## The rate resolver -/

/-- C1, where the code departs from it.  The day is `2024-01-01`; both rate records
parse and are on or before the day, and the record dated `0001-01-01` (rate 5) is strictly
later than the one dated `0000-06-01` (rate 7), so the claim asks for 5.  The code returns
7: the parsed date `0001-01-01` is the zero `time.Time`, so `bestDate.IsZero()` still
holds once it is stored and the next qualifying record replaces it. -/
theorem getRateForDate_latest_fails :
    ¬ ∀ (Rates : List (ratesRow Int)) (date : String) (t rt : Time),
      parseDate date = some t → (∃ r ∈ Rates, parseDate r.Date = some rt) →
      rt.After t = false →
      (∀ r' ∈ Rates, ∀ rt', parseDate r'.Date = some rt' → rt'.After t = false →
        rt'.After rt = false) →
      ∃ r₀ ∈ Rates, parseDate r₀.Date = some rt ∧ getRateForDate Rates date = r₀.Rate := by
  intro h
  have h' := h [⟨"0001-01-01", 5⟩, ⟨"0000-06-01", 7⟩] "2024-01-01" ⟨2024, 1, 1⟩ ⟨1, 1, 1⟩
    (by decide) (by decide) (by decide) (by decide)
  revert h'
  decide

/-- Where the scan does find the latest record: `getRateForDate` returns 0 when the day
does not parse or no record parses with a date on or before the day; otherwise, when the
latest date `rt` among the records that parse and are on or before the day is not the
zero time, or the rate list is in date order, the value is the rate of a record dated
`rt`. -/
theorem getRateForDate_latest {F : Type} [Zero F] (Rates : List (ratesRow F))
    (date : String) :
    (parseDate date = none → getRateForDate Rates date = 0) ∧
    (∀ t, parseDate date = some t →
      ((∀ r ∈ Rates, ∀ rt, parseDate r.Date = some rt → rt.After t = true) →
        getRateForDate Rates date = 0) ∧
      (∀ rt, (∃ r ∈ Rates, parseDate r.Date = some rt) → rt.After t = false →
        (∀ r' ∈ Rates, ∀ rt', parseDate r'.Date = some rt' → rt'.After t = false →
          rt'.After rt = false) →
        (rt ≠ Time.zero ∨ Ordered lessRates Rates) →
        ∃ r₀ ∈ Rates, parseDate r₀.Date = some rt ∧
          getRateForDate Rates date = r₀.Rate)) := by
  unfold getRateForDate
  refine ⟨fun hd => by rw [hd], fun t hd => ?_⟩
  rw [hd]
  refine ⟨fun h => ?_, fun rt hex hq hmax hcond => ?_⟩
  · show (Rates.foldl (rateStep t) (Time.zero, 0)).2 = 0
    rw [foldl_rateStep_none t Rates _ h]
  · exact foldl_rateStep_latest t rt Rates 0 hex hq hmax hcond

/-- Scenario A and a day equal to an effective date: the rate in force on `2024-03-01`
is that of the record dated `2024-01-01`, and on `2024-06-01` the record dated that very
day applies. -/
theorem getRateForDate_latest_witness :
    (∃ r₀ ∈ [(⟨"2024-01-01", 10⟩ : ratesRow Int), ⟨"2024-06-01", 20⟩],
      parseDate r₀.Date = some ⟨2024, 1, 1⟩ ∧
      getRateForDate [(⟨"2024-01-01", 10⟩ : ratesRow Int), ⟨"2024-06-01", 20⟩]
        "2024-03-01" = r₀.Rate) ∧
    (∃ r₀ ∈ [(⟨"2024-01-01", 10⟩ : ratesRow Int), ⟨"2024-06-01", 20⟩],
      parseDate r₀.Date = some ⟨2024, 6, 1⟩ ∧
      getRateForDate [(⟨"2024-01-01", 10⟩ : ratesRow Int), ⟨"2024-06-01", 20⟩]
        "2024-06-01" = r₀.Rate) :=
  ⟨((getRateForDate_latest [(⟨"2024-01-01", 10⟩ : ratesRow Int), ⟨"2024-06-01", 20⟩]
      "2024-03-01").2 ⟨2024, 3, 1⟩ (by decide)).2 ⟨2024, 1, 1⟩ (by decide) (by decide)
      (by decide) (Or.inl (by decide)),
    ((getRateForDate_latest [(⟨"2024-01-01", 10⟩ : ratesRow Int), ⟨"2024-06-01", 20⟩]
      "2024-06-01").2 ⟨2024, 6, 1⟩ (by decide)).2 ⟨2024, 6, 1⟩ (by decide) (by decide)
      (by decide) (Or.inl (by decide))⟩

/-- C2: the value of `getRateForDate` is 0 or the rate of a record of the list whose
date parses and is not strictly after the day; and it is 0 when every record is
unparsable or dated strictly after the day (in particular for the empty list). -/
theorem getRateForDate_zero_or_not_future {F : Type} [Zero F] (Rates : List (ratesRow F))
    (date : String) :
    (getRateForDate Rates date = 0 ∨
      ∃ t r rt, parseDate date = some t ∧ r ∈ Rates ∧ parseDate r.Date = some rt ∧
        rt.After t = false ∧ getRateForDate Rates date = r.Rate) ∧
    ((∀ t, parseDate date = some t →
        ∀ r ∈ Rates, ∀ rt, parseDate r.Date = some rt → rt.After t = true) →
      getRateForDate Rates date = 0) := by
  unfold getRateForDate
  cases hd : parseDate date with
  | none => exact ⟨Or.inl rfl, fun _ => rfl⟩
  | some t =>
    refine ⟨?_, fun h => ?_⟩
    · rcases foldl_rateStep_snd t Rates (Time.zero, (0 : F)) with h | ⟨r, hr, rt, hp, ha, he⟩
      · exact Or.inl h
      · exact Or.inr ⟨t, r, rt, rfl, hr, hp, ha, he⟩
    · show (Rates.foldl (rateStep t) (Time.zero, 0)).2 = 0
      rw [foldl_rateStep_none t Rates _ (h t rfl)]

/-- C2 at scenario C: the day `2024-12-01` precedes the only rate, dated `2025-01-01`. -/
theorem getRateForDate_zero_or_not_future_witness :
    getRateForDate [⟨"2025-01-01", (10 : Int)⟩] "2024-12-01" = 0 :=
  (getRateForDate_zero_or_not_future [⟨"2025-01-01", (10 : Int)⟩] "2024-12-01").2
    (by decide)

/-- C7 as stated fails: with two records dated `2024-01-01`, rates 10 then 20, and the
day `2024-03-01`, the record scanned last is not the one returned. -/
theorem getRateForDate_tie_last_fails :
    ¬ ∀ (pre post : List (ratesRow Int)) (r : ratesRow Int) (date : String) (t rt : Time),
      parseDate date = some t → parseDate r.Date = some rt → rt.After t = false →
      (∀ r' ∈ pre ++ post, ∀ rt', parseDate r'.Date = some rt' → rt'.After t = false →
        rt'.After rt = false) →
      (∃ r' ∈ pre, parseDate r'.Date = some rt) →
      (∀ r' ∈ post, parseDate r'.Date ≠ some rt) →
      getRateForDate (pre ++ r :: post) date = r.Rate := by
  intro h
  have h' := h [⟨"2024-01-01", 10⟩] [] ⟨"2024-01-01", 20⟩ "2024-03-01" ⟨2024, 3, 1⟩
    ⟨2024, 1, 1⟩ (by decide) (by decide) (by decide) (by decide) (by decide) (by decide)
  revert h'
  decide

/-- C7, amended: when several qualifying records (parsable, on or before the day) share
the latest effective date, and that date is not the zero time `0001-01-01`, the rate
returned is that of the one scanned first. -/
theorem getRateForDate_tie_first {F : Type} [Zero F] (pre post : List (ratesRow F))
    (r : ratesRow F) (date : String) (t rt : Time)
    (hd : parseDate date = some t) (hr : parseDate r.Date = some rt)
    (hq : rt.After t = false) (hz : rt ≠ Time.zero)
    (hpre : ∀ r' ∈ pre, ∀ rt', parseDate r'.Date = some rt' → rt'.After t = false →
      rt'.Before rt = true)
    (hpost : ∀ r' ∈ post, ∀ rt', parseDate r'.Date = some rt' → rt'.After t = false →
      rt'.After rt = false)
    (_htie : ∃ r' ∈ post, parseDate r'.Date = some rt) :
    getRateForDate (pre ++ r :: post) date = r.Rate := by
  unfold getRateForDate
  rw [hd]
  show ((pre ++ r :: post).foldl (rateStep t) (Time.zero, 0)).2 = r.Rate
  rw [foldl_rateStep_first_latest t rt pre post r 0 hr hq hz hpre hpost]

/-- C7 amended, at the two records dated `2024-01-01`: the first one, rate 10, wins. -/
theorem getRateForDate_tie_first_witness :
    getRateForDate ([] ++ (⟨"2024-01-01", 10⟩ : ratesRow Int) :: [⟨"2024-01-01", 20⟩])
      "2024-03-01" = 10 :=
  getRateForDate_tie_first [] [⟨"2024-01-01", 20⟩] ⟨"2024-01-01", 10⟩ "2024-03-01"
    ⟨2024, 3, 1⟩ ⟨2024, 1, 1⟩ (by decide) (by decide) (by decide) (by decide) (by decide)
    (by decide) (by decide)

/-! ## The date comparator -/

/-- C8: the comparator of the two sorts is a strict weak order on all date strings: it is
irreflexive, asymmetric and transitive, and being incomparable is transitive.  An
unparsable left operand is never less, a parsable left operand is less than every
unparsable right operand, and two parsable operands compare by calendar date, that is
by year, then month, then day. -/
theorem lessDate_strict_weak_order :
    (∀ a, lessDate a a = false) ∧
    (∀ a b, lessDate a b = true → lessDate b a = false) ∧
    (∀ a b c, lessDate a b = true → lessDate b c = true → lessDate a c = true) ∧
    (∀ a b c, lessDate a b = false → lessDate b a = false →
      lessDate b c = false → lessDate c b = false →
      lessDate a c = false ∧ lessDate c a = false) ∧
    (∀ a b, parseDate a = none → lessDate a b = false) ∧
    (∀ a b ta, parseDate a = some ta → parseDate b = none → lessDate a b = true) ∧
    (∀ a b ta tb, parseDate a = some ta → parseDate b = some tb →
      (lessDate a b = true ↔
        (ta.year < tb.year ∨ (ta.year = tb.year ∧
          (ta.month < tb.month ∨ (ta.month = tb.month ∧ ta.day < tb.day)))))) ∧
    (∀ (F : Type) (a b : ratesRow F), lessRates a b = lessDate a.Date b.Date) ∧
    (∀ (F : Type) (a b : daysRow F), lessDays a b = lessDate a.Date b.Date) :=
  ⟨lessDate_strictWeak.irrefl, lessDate_strictWeak.asymm, lessDate_strictWeak.trans,
    lessDate_strictWeak.incomp_trans,
    fun _ b ha => lessDate_none_left b ha,
    fun _ _ _ ha hb => lessDate_some_none ha hb,
    fun _ _ ta tb ha hb => by rw [lessDate_some_some ha hb]; exact Time.before_iff ta tb,
    fun _ _ _ => rfl, fun _ _ _ => rfl⟩

/-- C8 at three strings, two of them unparsable: the two unparsable ones are incomparable
with each other, and the parsable one is less than the unparsable one. -/
theorem lessDate_strict_weak_order_witness :
    lessDate "2024-01-01" "bad" = true ∧ lessDate "bad" "2024-01-01" = false ∧
      lessDate "worse" "2024-01-01" = false :=
  ⟨lessDate_strict_weak_order.2.2.2.2.2.1 "2024-01-01" "bad" ⟨2024, 1, 1⟩ (by decide)
      (by decide),
    lessDate_strict_weak_order.2.1 "2024-01-01" "bad"
      (lessDate_strict_weak_order.2.2.2.2.2.1 "2024-01-01" "bad" ⟨2024, 1, 1⟩ (by decide)
        (by decide)),
    lessDate_strict_weak_order.2.2.2.2.1 "worse" "2024-01-01" (by decide)⟩

/-! ## The recalculation engine -/

section Engine

variable {F : Type} [Zero F] [Add F] [Mul F]

/-- C3: after `recalculateDb`, of two day records with parsable dates the one with the
strictly earlier date is at the lower index, and every day record with an unparsable
date is at a higher index than every day record with a parsable date.  Relies on
`sort.Slice` putting a slice in order for a strict weak order. -/
theorem recalculateDb_days_in_date_order
    (sortSlice : (α : Type) → (α → α → Bool) → List α → List α) (db : dbData F)
    (hsort : SortOrders sortSlice) (i j : Nat) (di dj : daysRow F)
    (hi : (recalculateDb sortSlice db).Days[i]? = some di)
    (hj : (recalculateDb sortSlice db).Days[j]? = some dj) :
    (∀ ti tj, parseDate di.Date = some ti → parseDate dj.Date = some tj →
      ti.Before tj = true → i < j) ∧
    (∀ ti, parseDate di.Date = some ti → parseDate dj.Date = none → i < j) := by
  have hord : Ordered lessDays (recalculateDb sortSlice db).Days := by
    rw [recalculateDb_eq]
    exact ordered_map_recalcRow _ (hsort _ _ _ (lessDays_strictWeak F))
  have key : lessDays di dj = true → i < j := by
    intro hless
    by_contra hij
    rcases Nat.lt_or_eq_of_le (Nat.le_of_not_lt hij) with hlt | heq
    · obtain ⟨hil, hie⟩ := List.getElem?_eq_some.1 hi
      obtain ⟨hjl, hje⟩ := List.getElem?_eq_some.1 hj
      have := (List.pairwise_iff_getElem.1 hord) j i hjl hil hlt
      rw [hie, hje, hless] at this
      cases this
    · subst heq
      rw [hi] at hj
      cases hj
      rw [(lessDays_strictWeak F).irrefl di] at hless
      cases hless
  refine ⟨fun ti tj hti htj hb => key ?_, fun ti hti htj => key ?_⟩
  · show lessDate di.Date dj.Date = true
    rw [lessDate_some_some hti htj]; exact hb
  · exact lessDate_some_none hti htj

/-- C4: after `recalculateDb`, `DaysTotal.Pay` is the sum of `Pay` over all day
records, `DaysTotal.Owed` the sum of `Pay` over the day records with `Paid = false`, and
`DaysTotal.Hours` the sum of `Hours` over all day records, whatever `DaysTotal` held
before.  The sums start from zero and add the rows in their order after the call. -/
theorem recalculateDb_totals (sortSlice : (α : Type) → (α → α → Bool) → List α → List α)
    (db : dbData F) :
    (recalculateDb sortSlice db).DaysTotal.Pay =
      sumLeft ((recalculateDb sortSlice db).Days.map (fun d => d.Pay)) ∧
    (recalculateDb sortSlice db).DaysTotal.Owed =
      sumLeft (((recalculateDb sortSlice db).Days.filter (fun d => !d.Paid)).map
        (fun d => d.Pay)) ∧
    (recalculateDb sortSlice db).DaysTotal.Hours =
      sumLeft ((recalculateDb sortSlice db).Days.map (fun d => d.Hours)) := by
  rw [recalculateDb_eq]
  exact ⟨rfl, rfl, rfl⟩

/-- C5: after `recalculateDb`, every day record has `Pay = getRateForDate(Date) * Hours`,
the rate being resolved against the rate list of the ledger after the call, and
`Owed = 0` if `Paid`, else `Owed = Pay`, whatever `Pay` and `Owed` held before. -/
theorem recalculateDb_rows (sortSlice : (α : Type) → (α → α → Bool) → List α → List α)
    (db : dbData F) :
    ∀ d ∈ (recalculateDb sortSlice db).Days,
      d.Pay = getRateForDate (recalculateDb sortSlice db).Rates d.Date * d.Hours ∧
      d.Owed = if d.Paid then 0 else d.Pay := by
  rw [recalculateDb_eq]
  intro d hd
  obtain ⟨d₀, -, rfl⟩ := List.mem_map.1 hd
  exact ⟨rfl, rfl⟩

/-- C6: `recalculateDb` is idempotent: a second call in succession leaves the ledger of
the first call as it is, so the day records (with `Pay` and `Owed`) and the totals are
the same.  Relies on `sort.Slice` putting a slice in order and returning a slice that
is already in order unchanged. -/
theorem recalculateDb_idempotent
    (sortSlice : (α : Type) → (α → α → Bool) → List α → List α) (db : dbData F)
    (hsort : SortOrders sortSlice) (hkeep : SortKeepsOrdered sortSlice) :
    recalculateDb sortSlice (recalculateDb sortSlice db) = recalculateDb sortSlice db := by
  have hr : Ordered lessRates (sortSlice (ratesRow F) lessRates db.Rates) :=
    hsort _ _ _ (lessRates_strictWeak F)
  have hd : Ordered lessDays ((sortSlice (daysRow F) lessDays db.Days).map
      (recalcRow (sortSlice (ratesRow F) lessRates db.Rates))) :=
    ordered_map_recalcRow _ (hsort _ _ _ (lessDays_strictWeak F))
  rw [recalculateDb_eq sortSlice db, recalculateDb_eq sortSlice]
  simp only [hkeep _ _ _ hr, hkeep _ _ _ hd, List.map_map]
  have hcomp : recalcRow (sortSlice (ratesRow F) lessRates db.Rates) ∘
      recalcRow (sortSlice (ratesRow F) lessRates db.Rates) =
      recalcRow (sortSlice (ratesRow F) lessRates db.Rates) := by
    funext d
    exact recalcRow_idem _ d
  rw [hcomp]

/-- C10: `recalculateDb` neither adds, drops nor edits raw data: the rate list after the
call is a permutation of the one before, and so is the day list when days are compared
on their raw fields (date, hours, paid).  Relies on `sort.Slice` only rearranging. -/
theorem recalculateDb_permutes
    (sortSlice : (α : Type) → (α → α → Bool) → List α → List α) (db : dbData F)
    (hperm : SortPermutes sortSlice) :
    (recalculateDb sortSlice db).Rates.Perm db.Rates ∧
    ((recalculateDb sortSlice db).Days.map rawDay).Perm (db.Days.map rawDay) := by
  rw [recalculateDb_eq]
  refine ⟨hperm _ _ _, ?_⟩
  simp only [List.map_map]
  have hcomp : (rawDay ∘ recalcRow (sortSlice (ratesRow F) lessRates db.Rates)) =
      (rawDay : daysRow F → _) := by
    funext d
    exact rawDay_recalcRow _ d
  rw [hcomp]
  exact (hperm _ _ _).map rawDay

end Engine

/-! ## The engine on the scenario ledger, sorted by insertion -/

/-- C3 on the scenario ledger: the day of scenario A ends at index 0 and the unparsable
day of scenario D at index 2. -/
theorem recalculateDb_days_in_date_order_witness :
    SortOrders insertionSortSlice ∧
    (recalculateDb insertionSortSlice scenarioLedger).Days[0]? =
      some ⟨"2024-03-01", 5, 50, false, 50⟩ ∧
    (recalculateDb insertionSortSlice scenarioLedger).Days[2]? = some ⟨"bad", 3, 0, false, 0⟩ ∧
    (∀ ti, parseDate "2024-03-01" = some ti → parseDate "bad" = none → 0 < 2) :=
  ⟨insertionSortSlice_orders, by decide, by decide,
    (recalculateDb_days_in_date_order insertionSortSlice scenarioLedger
      insertionSortSlice_orders 0 2 ⟨"2024-03-01", 5, 50, false, 50⟩ ⟨"bad", 3, 0, false, 0⟩
      (by decide) (by decide)).2⟩

/-- C5 on the scenario ledger, at the paid day of scenario B: rate 20, pay 100, owed 0. -/
theorem recalculateDb_rows_witness :
    (⟨"2024-07-01", 5, 100, true, 0⟩ : daysRow Int) ∈
      (recalculateDb insertionSortSlice scenarioLedger).Days ∧
    (100 : Int) =
      getRateForDate (recalculateDb insertionSortSlice scenarioLedger).Rates "2024-07-01" * 5 ∧
    (0 : Int) = if true = true then 0 else 100 :=
  ⟨by decide,
    recalculateDb_rows insertionSortSlice scenarioLedger ⟨"2024-07-01", 5, 100, true, 0⟩
      (by decide)⟩

/-- C6 on the scenario ledger. -/
theorem recalculateDb_idempotent_witness :
    SortOrders insertionSortSlice ∧ SortKeepsOrdered insertionSortSlice ∧
    recalculateDb insertionSortSlice (recalculateDb insertionSortSlice scenarioLedger) =
      recalculateDb insertionSortSlice scenarioLedger :=
  ⟨insertionSortSlice_orders, insertionSortSlice_keepsOrdered,
    recalculateDb_idempotent insertionSortSlice scenarioLedger insertionSortSlice_orders
      insertionSortSlice_keepsOrdered⟩

/-- C10 on the scenario ledger. -/
theorem recalculateDb_permutes_witness :
    SortPermutes insertionSortSlice ∧
    (recalculateDb insertionSortSlice scenarioLedger).Rates.Perm scenarioLedger.Rates ∧
    ((recalculateDb insertionSortSlice scenarioLedger).Days.map rawDay).Perm
      (scenarioLedger.Days.map rawDay) :=
  ⟨insertionSortSlice_permutes,
    recalculateDb_permutes insertionSortSlice scenarioLedger insertionSortSlice_permutes⟩

/-- Scenarios A, B and D together: the ledger after the call. -/
theorem recalculateDb_scenarioLedger :
    recalculateDb insertionSortSlice scenarioLedger =
      { Days := [⟨"2024-03-01", 5, 50, false, 50⟩, ⟨"2024-07-01", 5, 100, true, 0⟩,
          ⟨"bad", 3, 0, false, 0⟩]
        DaysTotal := ⟨13, 150, 50⟩
        Rates := [⟨"2024-01-01", 10⟩, ⟨"2024-06-01", 20⟩] } := by
  decide

/-! ## The save branch -/

/-- C9: in the save branch for days, the new day list is the rows of the indices
`0..n-1` (`n` the length of the current day list) whose delete field is empty, in index
order, each holding the submitted date, hours and paid values with `Pay` and `Owed`
set to 0; the rest of the ledger is untouched. -/
theorem saveDays_keeps_undeleted {F : Type} [Zero F] (parseFloat : String → F)
    (postFormValue : String → String) (db : dbData F) :
    (saveDays parseFloat postFormValue db).Days =
      ((List.range db.Days.length).filter
        (fun i => postFormValue ("delete" ++ "_" ++ toString i) == "")).map
        (fun i =>
          { Date := postFormValue ("date" ++ "_" ++ toString i)
            Hours := parseFloat (postFormValue ("hours" ++ "_" ++ toString i))
            Pay := 0
            Paid := postFormValue ("paid" ++ "_" ++ toString i) != ""
            Owed := 0 }) ∧
    (saveDays parseFloat postFormValue db).Rates = db.Rates ∧
    (saveDays parseFloat postFormValue db).DaysTotal = db.DaysTotal := by
  refine ⟨?_, rfl, rfl⟩
  show (List.range db.Days.length).foldl (saveDaysStep parseFloat postFormValue) [] = _
  rw [foldl_saveDaysStep]
  rfl

end Timeshit
